import Mathlib

/-!
Verification of the core claims about the gogotelehash peer-to-peer runtime.

The Go sources are shallowly embedded:
* `time.Time` and `time.Duration` values are natural numbers (nanoseconds);
* transport addresses (`transports.Addr`) are natural numbers compared by
  equality, matching `transports.EqualAddr`;
* `uint32` arithmetic is `Nat` arithmetic reduced modulo `2^32` exactly where
  the Go code can overflow;
* the cipherset (`cipherset.State`) is an abstract state type `C` together
  with the operations the exchange consumes (`ApplyHandshake`, `IsHigh`,
  `EncryptHandshake`), mirroring the CipherSet contract;
* `sort.Sort` with `sortedAddressBookEntries.Less` is modelled by an
  insertion sort over the non-strict relation `entryLe a b = !entryLess b a`:
  Go's (unstable) sort guarantees exactly a permutation of the input that is
  `Pairwise entryLe`, which is what `sortEntries` produces.
-/

namespace Gogotelehash

/-! ## Address book (addressBook / addressBookEntry) -/

/-- One entry of the per-exchange address book (`addressBookEntry`).
`latency`, `samples` and `sampleCount` mirror the unexported latency EWMA
fields; the `samples` list always has 16 elements. -/
structure AddressBookEntry where
  address : Nat
  lastAttempt : Nat
  firstSeen : Nat
  lastSeen : Nat
  reachable : Bool
  gotResponse : Bool
  latency : Nat
  samples : List Nat
  sampleCount : Nat
deriving DecidableEq, Repr

/-- `c_MAX_ADDRESS_BOOK_ENTRIES` from the source. -/
def c_MAX_ADDRESS_BOOK_ENTRIES : Nat := 16

/-- The 125ms latency prior used by `InitSamples`, in nanoseconds. -/
def latencyPrior : Nat := 125000000

/-- The address book: the `known` list plus the `active` pointer, modelled as
an index into `known` (`updateActive` only ever selects the first entry). -/
structure AddressBook where
  known : List AddressBookEntry
  active : Option Nat
deriving DecidableEq, Repr

/-- `newAddressBook` (the tracing id is dropped). -/
def newAddressBook : AddressBook := { known := [], active := none }

/-- `addressBookEntry.InitSamples`. -/
def AddressBookEntry.initSamples (e : AddressBookEntry) : AddressBookEntry :=
  { e with samples := List.replicate 16 latencyPrior, latency := latencyPrior }

/-- `addressBookEntry.AddLatencySample`: overwrite the ring slot
`sample_count % 16`, bump the count, recompute `latency` as the mean of the
16 samples. -/
def AddressBookEntry.addLatencySample (e : AddressBookEntry) (d : Nat) : AddressBookEntry :=
  let samples := e.samples.set (e.sampleCount % 16) d
  { e with samples := samples, sampleCount := e.sampleCount + 1,
           latency := samples.foldl (· + ·) 0 / 16 }

/-- `sortedAddressBookEntries.Less`: reachable entries first, then by
ascending latency. -/
def entryLess (a b : AddressBookEntry) : Bool :=
  if a.reachable && !b.reachable then true
  else if !a.reachable && b.reachable then false
  else decide (a.latency < b.latency)

/-- The non-strict order guaranteed by `sort.Sort(sortedAddressBookEntries …)`:
for `i < j` the sorted slice satisfies `!Less(s[j], s[i])`. -/
def entryLe (a b : AddressBookEntry) : Bool := !entryLess b a

/-- `addressBook.indexOf`: the index of the first entry whose address equals
`addr` (Go returns `-1` when absent; we return `none`). -/
def indexOf : List AddressBookEntry → Nat → Option Nat
  | [], _ => none
  | e :: es, addr => if e.address = addr then some 0 else (indexOf es addr).map (· + 1)

/-- In-place update of the entry at index `i` (Go mutates the entry through
the pointer stored in the slice). -/
def updAt {α : Type} : List α → Nat → (α → α) → List α
  | [], _, _ => []
  | x :: xs, 0, f => f x :: xs
  | x :: xs, n + 1, f => x :: updAt xs n f

/-- Insert an entry into a sorted list at its `entryLe` position. -/
def insertEntry (e : AddressBookEntry) : List AddressBookEntry → List AddressBookEntry
  | [] => [e]
  | x :: xs => if entryLe e x then e :: x :: xs else x :: insertEntry e xs

/-- The sort performed by `sort.Sort(sortedAddressBookEntries(book.known))`:
a permutation of the input sorted by `(reachable desc, latency asc)`. -/
def sortEntries : List AddressBookEntry → List AddressBookEntry
  | [] => []
  | x :: xs => insertEntry x (sortEntries xs)

/-- The `active` pointer selected by `updateActive` from a (sorted) `known`
list: the first entry when it is reachable, otherwise none. -/
def activeOf (known : List AddressBookEntry) : Option Nat :=
  match known with
  | [] => none
  | e :: _ => if e.reachable then some 0 else none

/-- `addressBook.updateActive`: sort `known`, truncate to 16 entries, point
`active` at the first entry iff it is reachable. -/
def updateActive (book : AddressBook) : AddressBook :=
  let sorted := (sortEntries book.known).take c_MAX_ADDRESS_BOOK_ENTRIES
  { known := sorted, active := activeOf sorted }

/-- The entry allocated for a newly seen address (shared by `AddAddress` and
the insert branch of `ReceivedHandshake`): first/last seen now, reachable,
got-response, latency prior installed by `InitSamples`, zero `LastAttempt`. -/
def initEntry (addr now : Nat) : AddressBookEntry :=
  AddressBookEntry.initSamples
    { address := addr, lastAttempt := 0, firstSeen := now, lastSeen := now,
      reachable := true, gotResponse := true, latency := 0, samples := [],
      sampleCount := 0 }

/-- `addressBook.AddAddress`. -/
def AddressBook.AddAddress (book : AddressBook) (addr now : Nat) : AddressBook :=
  match indexOf book.known addr with
  | some _ => book
  | none => updateActive { book with known := book.known ++ [initEntry addr now] }

/-- `addressBook.ReceivedHandshake`. -/
def AddressBook.ReceivedHandshake (book : AddressBook) (addr now : Nat) : AddressBook :=
  match indexOf book.known addr with
  | none =>
    updateActive { book with known := book.known ++ [initEntry addr now] }
  | some i =>
    updateActive { book with known := updAt book.known i (fun e =>
      { e.addLatencySample (now - e.lastAttempt) with
        lastSeen := now, reachable := true, gotResponse := true }) }

/-- `addressBook.SentHandshake`: record the attempt time on an existing entry;
a miss changes nothing. -/
def AddressBook.SentHandshake (book : AddressBook) (addr now : Nat) : AddressBook :=
  match indexOf book.known addr with
  | none => book
  | some i =>
    { book with known := updAt book.known i (fun e => { e with lastAttempt := now }) }

/-- The per-entry effect of `NextHandshakeEpoch`: an entry that is reachable
but got no response since the last epoch is marked broken; every entry's
`GotResponse` is reset. -/
def epochEntry (e : AddressBookEntry) : AddressBookEntry :=
  if !e.gotResponse && e.reachable then { e with reachable := false, gotResponse := false }
  else { e with gotResponse := false }

/-- `addressBook.NextHandshakeEpoch`: `updateActive` runs only when some
entry's reachability actually changed. -/
def AddressBook.NextHandshakeEpoch (book : AddressBook) : AddressBook :=
  let changed := book.known.any (fun e => !e.gotResponse && e.reachable)
  let book := { book with known := book.known.map epochEntry }
  if changed then updateActive book else book

/-- The address-book invariant of P4: `known` is sorted by
`(reachable desc, latency asc)`, holds at most 16 entries, and `active`
points at the first entry exactly when that entry is reachable. -/
def bookInv (book : AddressBook) : Prop :=
  book.known.Pairwise (fun a b => entryLe a b = true) ∧
  book.known.length ≤ c_MAX_ADDRESS_BOOK_ENTRIES ∧
  book.active = activeOf book.known

/-! ## Sequence discipline (Exchange.getNextSeq) -/

/-- `2^32`; the Go counters are `uint32`. -/
def U32 : Nat := 4294967296

/-- The sequence-relevant fields of an `Exchange`, plus the cipher's fixed
`IsHigh()` bit. -/
structure SeqState where
  lastLocalSeq : Nat
  lastRemoteSeq : Nat
  nextSeq : Nat
  isHigh : Bool
deriving DecidableEq, Repr

/-- The value computed by `Exchange.getNextSeq` before `nextSeq` is advanced:
start from `nextSeq`, raise to `now`, to `lastLocalSeq+1` or `lastRemoteSeq+1`
when strictly below those counters, skip 0, then round up to the local parity
(odd when the cipher is the high side). Every `+1` is `uint32` addition. -/
def nextSeqCalc (ns ll lr : Nat) (high : Bool) (now : Nat) : Nat :=
  let seq := ns
  let seq := if seq < now then now else seq
  let seq := if seq < ll then (ll + 1) % U32 else seq
  let seq := if seq < lr then (lr + 1) % U32 else seq
  let seq := if seq = 0 then (seq + 1) % U32 else seq
  if high then (if seq % 2 = 0 then (seq + 1) % U32 else seq)
  else (if seq % 2 = 1 then (seq + 1) % U32 else seq)

/-- `Exchange.getNextSeq`: returns the chosen sequence number and stores
`seq + 2` (as `uint32`) into `nextSeq`. `now` is `uint32(time.Now().Unix())`. -/
def getNextSeq (st : SeqState) (now : Nat) : Nat × SeqState :=
  let s := nextSeqCalc st.nextSeq st.lastLocalSeq st.lastRemoteSeq st.isHigh now
  (s, { st with nextSeq := (s + 2) % U32 })

/-- The value claimed by the spec sentence for `next_seq()`:
`max(now_unix, last_remote_seq+1, last_local_seq+1, next_seq)` adjusted upward
to the local parity. -/
def specNextSeq (st : SeqState) (now : Nat) : Nat :=
  let m := max (max now (st.lastRemoteSeq + 1)) (max (st.lastLocalSeq + 1) st.nextSeq)
  if st.isHigh then (if m % 2 = 0 then m + 1 else m) else (if m % 2 = 1 then m + 1 else m)

/-! ## Exchange state machine and applyHandshake -/

/-- `ExchangeState` (the Go constants are a bitmask; only the six named
states occur). -/
inductive XState where
  | initialising
  | dialing
  | idle
  | active
  | expired
  | broken
deriving DecidableEq, Repr

/-- `ExchangeState.IsOpen`. -/
def XState.IsOpen : XState → Bool
  | .idle => true
  | .active => true
  | _ => false

/-- A decrypted handshake (`cipherset.Handshake`): `At()`, `CSID()`,
`PublicKey()` and `Parts()`, the last two abstracted to numbers. -/
structure Handshake where
  atSeq : Nat
  csid : Nat
  publicKey : Nat
  parts : Nat
deriving DecidableEq, Repr

/-- The cipherset operations the exchange consumes, over an abstract cipher
state `C`. `applyHandshake` returns the updated state on acceptance and
`none` on rejection; `encHandshake` is `EncryptHandshake` (body bytes
abstracted to a number). -/
structure Cipher (C : Type) where
  applyHandshake : C → Handshake → Option C
  isHigh : C → Bool
  encHandshake : C → Nat → Nat → Nat

/-- An encoded handshake packet: one head byte (the CSID) plus body. -/
structure HandshakePkt where
  csid : Nat
  body : Nat
deriving DecidableEq, Repr

/-- The observable events triggered by `applyHandshake`
(`ExchangeOpenedEvent`). -/
inductive Event where
  | exchangeOpened
deriving DecidableEq, Repr

/-- The exchange state touched by the handshake path. Timers are modelled by
their deadlines: `breakDeadline` for `tBreak`, `expireDeadline` for `tExpire`
(`none` = stopped). `localParts` stands for `localIdent.parts`; `remoteIdent`
holds the `(public key, parts)` pair when known. -/
structure ExchangeM (C : Type) where
  xstate : XState
  lastLocalSeq : Nat
  lastRemoteSeq : Nat
  nextSeq : Nat
  csid : Nat
  cstate : C
  localParts : Nat
  remoteIdent : Option (Nat × Nat)
  channels : List Nat
  book : AddressBook
  breakDeadline : Nat
  expireDeadline : Option Nat
deriving DecidableEq, Repr

/-- `Exchange.isLocalSeq`. -/
def isLocalSeqM {C : Type} (cip : Cipher C) (x : ExchangeM C) (seq : Nat) : Bool :=
  if cip.isHigh x.cstate then seq % 2 == 1 else seq % 2 == 0

/-- `Exchange.resetBreak`: re-arm `tBreak` two minutes out. -/
def resetBreak {C : Type} (x : ExchangeM C) (now : Nat) : ExchangeM C :=
  { x with breakDeadline := now + 120 }

/-- `Exchange.resetExpire`: stop `tExpire` while channels exist, re-arm it
(2 min) when idle and open, and move an open exchange between `Idle` and
`Active`. -/
def resetExpire {C : Type} (x : ExchangeM C) (now : Nat) : ExchangeM C :=
  let chActive := !x.channels.isEmpty
  let x := if chActive then { x with expireDeadline := none }
           else if x.xstate.IsOpen then { x with expireDeadline := some (now + 120) } else x
  if x.xstate.IsOpen then { x with xstate := if chActive then .active else .idle } else x

/-- `Exchange.generateHandshake`: a zero `seq` draws a fresh sequence number
via `getNextSeq`; the packet body is `EncryptHandshake(seq, localIdent.parts)`
and `lastLocalSeq` is raised to `seq`. (LOB encoding errors cannot occur for
this fixed shape and are not modelled.) -/
def generateHandshakeM {C : Type} (cip : Cipher C) (x : ExchangeM C) (seq0 now : Nat) :
    HandshakePkt × ExchangeM C :=
  let sp : Nat × ExchangeM C :=
    if seq0 = 0 then
      let s := nextSeqCalc x.nextSeq x.lastLocalSeq x.lastRemoteSeq (cip.isHigh x.cstate) now
      (s, { x with nextSeq := (s + 2) % U32 })
    else (seq0, x)
  let pkt : HandshakePkt := { csid := sp.2.csid, body := cip.encHandshake sp.2.cstate sp.1 sp.2.localParts }
  let x := if sp.2.lastLocalSeq < sp.1 then { sp.2 with lastLocalSeq := sp.1 } else sp.2
  (pkt, x)

/-- `Exchange.applyHandshake` (the private method): returns the optional
response packet, the accepted flag, the updated exchange, and the events
triggered. Drops: stale seq, wrong CSID, cipher rejection. On a response
(local-parity seq) it resets `tBreak` and records the handshake in the
address book; on a request it records the address and generates a response
at the same seq. A first acceptance moves `Initialising`/`Dialing` to open
and triggers `ExchangeOpenedEvent`. (`NewIdentity` failure for a key the
cipher just accepted is not modelled.) -/
def applyHandshakeAccepted {C : Type} (cip : Cipher C) (x : ExchangeM C) (hs : Handshake)
    (src now : Nat) (c : C) : Option HandshakePkt × Bool × ExchangeM C × List Event :=
  -- the body of applyHandshake once the cipherset accepted, with updated state c

  let x := { x with cstate := c }
  let x := if x.remoteIdent.isNone then
      { x with remoteIdent := some (hs.publicKey, hs.parts) } else x
  let rp : Option HandshakePkt × ExchangeM C :=
    if isLocalSeqM cip x hs.atSeq then
      let x := resetBreak x now
      (none, { x with book := x.book.ReceivedHandshake src now })
    else
      let x := { x with book := x.book.AddAddress src now }
      let g := generateHandshakeM cip x hs.atSeq now
      (some g.1, g.2)
  if rp.2.xstate = .dialing ∨ rp.2.xstate = .initialising then
    (rp.1, true, resetExpire { rp.2 with xstate := .idle } now, [Event.exchangeOpened])
  else
    (rp.1, true, rp.2, [])

def applyHandshakeM {C : Type} (cip : Cipher C) (x : ExchangeM C) (hs : Handshake)
    (src now : Nat) : Option HandshakePkt × Bool × ExchangeM C × List Event :=
  if hs.atSeq < x.lastRemoteSeq then (none, false, x, [])
  else if hs.csid ≠ x.csid then (none, false, x, [])
  else
    match cip.applyHandshake x.cstate hs with
    | none => (none, false, x, [])
    | some c => applyHandshakeAccepted cip x hs src now c

/-- A trivially accepting cipher over the unit state, used to instantiate the
exchange model on concrete inputs. -/
def cipU : Cipher Unit :=
  { applyHandshake := fun _ _ => some (), isHigh := fun _ => false,
    encHandshake := fun _ s p => s * 1000 + p }

/-- A concrete dialing exchange with one known path (address 7). -/
def xC3 : ExchangeM Unit :=
  { xstate := .dialing, lastLocalSeq := 0, lastRemoteSeq := 0, nextSeq := 0, csid := 1,
    cstate := (), localParts := 5, remoteIdent := some (9, 9), channels := [],
    book := { known := [initEntry 7 0], active := some 0 }, breakDeadline := 0,
    expireDeadline := some 60 }

/-- A concrete response handshake (`at = 100` has the low side's even,
i.e. local, parity). -/
def hsC3 : Handshake := { atSeq := 100, csid := 1, publicKey := 3, parts := 4 }

/-- The sample-independent projection of an address-book entry: everything
except the latency statistics (`latency`, `samples`, `sampleCount`). -/
structure EntryCore where
  address : Nat
  lastAttempt : Nat
  firstSeen : Nat
  lastSeen : Nat
  reachable : Bool
  gotResponse : Bool
deriving DecidableEq, Repr

/-- Project an entry to its sample-independent core. -/
def entryCore (e : AddressBookEntry) : EntryCore :=
  { address := e.address, lastAttempt := e.lastAttempt, firstSeen := e.firstSeen,
    lastSeen := e.lastSeen, reachable := e.reachable, gotResponse := e.gotResponse }

/-- The observable exchange state up to address-book latency statistics:
every non-book field, plus the book viewed as the multiset of entry cores
and the `active` selection. -/
def coreView {C : Type} (x : ExchangeM C) :
    XState × Nat × Nat × Nat × Nat × C × Nat × Option (Nat × Nat) × List Nat ×
      Nat × Option Nat × Multiset EntryCore × Option Nat :=
  (x.xstate, x.lastLocalSeq, x.lastRemoteSeq, x.nextSeq, x.csid, x.cstate, x.localParts,
   x.remoteIdent, x.channels, x.breakDeadline, x.expireDeadline,
   (x.book.known.map entryCore : Multiset EntryCore), x.book.active)

/-! ## Inbound routing (Exchange.received) -/

/-- Where `Exchange.received` routes an inbound message. -/
inductive Route where
  | handshakeRoute
  | packetRoute
deriving DecidableEq, Repr

/-- `Exchange.received`: `receivedHandshake` when the message has at least 3
bytes and its second byte equals 1, else `receivedPacket`. -/
def receivedRoute (msg : List Nat) : Route :=
  match msg with
  | _ :: b1 :: _ :: _ => if b1 = 1 then .handshakeRoute else .packetRoute
  | _ => .packetRoute

/-- The 2-byte big-endian head-length field of a LOB packet. -/
def headLen (msg : List Nat) : Nat :=
  match msg with
  | b0 :: b1 :: _ => b0 * 256 + b1
  | _ => 0

/-! ## Handshake backoff (Exchange.rescheduleHandshake) -/

/-- The new `nextHandshake` delay (seconds) computed by
`Exchange.rescheduleHandshake` from the previous stored value `prev` and the
random draw `r` (`rand.Intn(n/3)`, only taken when `n/3 > 0`). -/
def rescheduleDelay (prev r : Nat) : Nat :=
  let n := if prev = 0 then 4 else prev * 2
  let n := if n > 60 then 60 else n
  if 0 < n / 3 then n - r else n

/-- The backoff claimed by the spec: `min(60, max(1, prev*2))` minus a random
integer in `[0, delay/3)`. -/
def specRescheduleDelay (prev r : Nat) : Nat :=
  let n := min 60 (max 1 (prev * 2))
  if 0 < n / 3 then n - r else n

/-! ## Dial timeout run (newExchange / Dial / expire timers) -/

/-- The timer state of a freshly dialed exchange that never receives a
handshake. Deadlines are seconds since creation; `none` = stopped.
(`deliverHandshake` only sends packets and touches the address book, so it is
dropped from this timer model.) -/
structure DialSim where
  tNow : Nat
  xstate : XState
  tExpire : Option Nat
  tBreak : Option Nat
  tDeliver : Option Nat
  nextHandshake : Nat
deriving DecidableEq, Repr

/-- `Exchange.rescheduleHandshake` acting on the simulation, with every
`rand.Intn` draw equal to 0 (a possible execution). -/
def rescheduleSim (s : DialSim) : DialSim :=
  let d := rescheduleDelay s.nextHandshake 0
  { s with nextHandshake := d, tDeliver := some (s.tNow + d) }

/-- `newExchange` at time 0: `tBreak` armed at 2 min, `tExpire` at 60 s,
`tDeliverHandshake` at 60 s; then `resetExpire` (a no-op in `Initialising`
with no channels) and `rescheduleHandshake`. -/
def newExchangeSim : DialSim :=
  rescheduleSim
    { tNow := 0, xstate := .initialising, tBreak := some 120, tExpire := some 60,
      tDeliver := some 60, nextHandshake := 0 }

/-- `Exchange.Dial` entry (state `Initialising`): move to `Dialing`, deliver a
handshake (no timer effect) and reschedule. -/
def dialSim (s : DialSim) : DialSim :=
  if s.xstate = .initialising then rescheduleSim { s with xstate := .dialing } else s

/-- `Exchange.expire`: once terminal nothing changes; otherwise the state
becomes `Broken` on an error (`onBreak`) or `Expired` (`onExpire`) and all
three timers stop. -/
def expireSim (s : DialSim) (isBreak : Bool) : DialSim :=
  if s.xstate = .expired ∨ s.xstate = .broken then s
  else { s with xstate := if isBreak then .broken else .expired,
                tExpire := none, tBreak := none, tDeliver := none }

/-- Fire the earliest armed timer (`1000000` stands for "unarmed"). All
deadlines in the no-handshake run are distinct, so the tie-break order is
irrelevant. -/
def stepSim (s : DialSim) : DialSim :=
  let de := s.tExpire.getD 1000000
  let db := s.tBreak.getD 1000000
  let dd := s.tDeliver.getD 1000000
  let m := min de (min db dd)
  if m = 1000000 then s
  else if de = m then expireSim { s with tNow := m, tExpire := none } false
  else if db = m then expireSim { s with tNow := m, tBreak := none } true
  else rescheduleSim { s with tNow := m }

/-- Run the timer loop until a terminal state (or out of fuel). -/
def runSim : Nat → DialSim → DialSim
  | 0, s => s
  | n + 1, s =>
    if s.xstate = .expired ∨ s.xstate = .broken then s else runSim n (stepSim s)

/-! ## Error surfacing (Dial / deliverPacket waiters, expire) -/

/-- The error kinds the spec distinguishes for waiters. The exchange code only
ever constructs `BrokenExchangeError`. -/
inductive SurfaceErr where
  | brokenExchange
  | exchangeExpired
deriving DecidableEq, Repr

/-- What `Exchange.Dial` returns once the state has left `Dialing`:
`BrokenExchangeError` whenever the exchange is not open. -/
def dialWaitResult (s : XState) : Option SurfaceErr :=
  if s.IsOpen then none else some .brokenExchange

/-- What `Exchange.deliverPacket` returns once the state has left `Dialing`:
`BrokenExchangeError` whenever the exchange is not open. -/
def deliverPacketWaitResult (s : XState) : Option SurfaceErr :=
  if s.IsOpen then none else some .brokenExchange

/-- `Exchange.expire`: the new state and the error carried by the
`ExchangeClosedEvent` it triggers (`none` = already terminal, no event). -/
def expireApply (s : XState) (err : Option SurfaceErr) : XState × Option (Option SurfaceErr) :=
  if s = .expired ∨ s = .broken then (s, none)
  else ((if err.isSome then .broken else .expired), some err)

/-! ## Relay peer introduction (peer_handler.serve_peer) -/

/-- The header of an inbound `peer` request: the named peer and the optional
`local` LAN address `{IP, Port}`. -/
structure PeerHdr where
  peer : String
  localAddr : Option (String × Nat)
deriving DecidableEq, Repr

/-- What the relay knows about the sender of the `peer` request: hashname,
optional public key (abstracted to a number) and the observed IP/port. -/
structure SenderInfo where
  hashname : String
  pubkey : Option Nat
  ip : String
  port : Nat
deriving DecidableEq, Repr

/-- The `connect` channel the relay opens: target hashname, the IP/port put
in the header, and the DER-encoded sender key as body. -/
structure ConnectOut where
  target : String
  ip : String
  port : Nat
  body : Nat
deriving DecidableEq, Repr

/-- `peer_handler.serve_peer`, parametrised by the collaborators it consumes:
`parseHN` is `HashnameFromString`, `getPeerIP` looks up the relay's known
external IP for a registered peer (`sw.main.GetPeer(...).addr.addr.IP`),
`encDER` is `enc_DER_RSA`. Returns the `connect` channel opened, or `none`
when the request is dropped. -/
def servePeer (selfHN : String) (parseHN : String → Option String)
    (getPeerIP : String → Option String) (encDER : Nat → Option Nat)
    (hdr : PeerHdr) (sender : SenderInfo) : Option ConnectOut :=
  match parseHN hdr.peer with
  | none => none
  | some peerHN =>
    if peerHN = selfHN then none
    else if peerHN = sender.hashname then none
    else
      match sender.pubkey with
      | none => none
      | some pk =>
        match getPeerIP peerHN with
        | none => none
        | some peerIP =>
          let ipp : String × Nat :=
            match hdr.localAddr with
            | some lp => if peerIP = sender.ip then lp else (sender.ip, sender.port)
            | none => (sender.ip, sender.port)
          match encDER pk with
          | none => none
          | some body => some { target := peerHN, ip := ipp.1, port := ipp.2, body := body }

/-! ## Helper lemmas -/

/-- Unconditional bounds for `nextSeqCalc` when no `uint32` addition wraps:
the result lies within 2 of the running maximum, is nonzero, and has the
local parity. -/
theorem nextSeqCalc_spec (ns ll lr : Nat) (high : Bool) (now : Nat)
    (hns : ns + 4 < U32) (hll : ll + 4 < U32) (hlr : lr + 4 < U32) (hnow : now + 4 < U32) :
    max now (max ll (max lr ns)) ≤ nextSeqCalc ns ll lr high now ∧
    nextSeqCalc ns ll lr high now ≤ max now (max ll (max lr ns)) + 2 ∧
    nextSeqCalc ns ll lr high now ≠ 0 ∧
    nextSeqCalc ns ll lr high now % 2 = (if high then 1 else 0) := by
  simp only [U32] at hns hll hlr hnow
  cases high <;> simp only [nextSeqCalc, U32, Bool.false_eq_true, if_false, if_true,
    ite_true, ite_false] <;> split_ifs <;> omega

/-- The parity adjustment holds for every in-range `uint32` state, even when
the `seq+1` addition wraps (the wrapped value 0 is even). -/
theorem nextSeqCalc_parity (ns ll lr : Nat) (high : Bool) (now : Nat)
    (hns : ns < U32) (hll : ll < U32) (hlr : lr < U32) (hnow : now < U32) :
    nextSeqCalc ns ll lr high now % 2 = (if high then 1 else 0) ∧
    nextSeqCalc ns ll lr high now < U32 := by
  simp only [U32] at hns hll hlr hnow
  cases high <;> simp only [nextSeqCalc, U32, Bool.false_eq_true, if_false, if_true,
    ite_true, ite_false] <;> split_ifs <;> omega

/-- `updAt` preserves length. -/
theorem length_updAt {α : Type} (l : List α) (i : Nat) (f : α → α) :
    (updAt l i f).length = l.length := by
  induction l generalizing i with
  | nil => rfl
  | cons x xs ih => cases i <;> simp [updAt, ih]

/-- `updAt` maps the entry at `i` through `f` and leaves the rest alone. -/
theorem getElem?_updAt {α : Type} (l : List α) (i j : Nat) (f : α → α) :
    (updAt l i f)[j]? = if j = i then (l[j]?).map f else l[j]? := by
  induction l generalizing i j with
  | nil => simp [updAt]
  | cons x xs ih =>
    cases i with
    | zero => cases j <;> simp [updAt]
    | succ n => cases j <;> simp [updAt, ih]

/-- A member of `updAt l i f` is a member of `l` or the image of one. -/
theorem mem_updAt {α : Type} {l : List α} {i : Nat} {f : α → α} {y : α}
    (h : y ∈ updAt l i f) : y ∈ l ∨ ∃ e, e ∈ l ∧ y = f e := by
  induction l generalizing i with
  | nil => simp [updAt] at h
  | cons x xs ih =>
    cases i with
    | zero =>
      simp only [updAt, List.mem_cons] at h
      rcases h with h | h
      · exact Or.inr ⟨x, List.mem_cons_self x xs, h⟩
      · exact Or.inl (List.mem_cons_of_mem x h)
    | succ n =>
      simp only [updAt, List.mem_cons] at h
      rcases h with h | h
      · exact Or.inl (h ▸ List.mem_cons_self x xs)
      · rcases ih h with h | ⟨e, he, hy⟩
        · exact Or.inl (List.mem_cons_of_mem x h)
        · exact Or.inr ⟨e, List.mem_cons_of_mem x he, hy⟩

/-- `entryLe` only looks at `reachable` and `latency`. -/
theorem entryLe_congr {a a' b b' : AddressBookEntry}
    (ha1 : a'.reachable = a.reachable) (ha2 : a'.latency = a.latency)
    (hb1 : b'.reachable = b.reachable) (hb2 : b'.latency = b.latency) :
    entryLe a' b' = entryLe a b := by
  simp [entryLe, entryLess, ha1, ha2, hb1, hb2]

/-- Transitivity of the sort order. -/
theorem entryLe_trans (a b c : AddressBookEntry) :
    entryLe a b → entryLe b c → entryLe a c := by
  simp only [entryLe, entryLess]
  cases a.reachable <;> cases b.reachable <;> cases c.reachable <;> simp <;> omega

/-- Totality of the sort order. -/
theorem entryLe_total (a b : AddressBookEntry) : entryLe a b || entryLe b a := by
  simp only [entryLe, entryLess]
  cases a.reachable <;> cases b.reachable <;> simp <;> omega

/-- `insertEntry` yields a permutation of consing. -/
theorem perm_insertEntry (e : AddressBookEntry) (l : List AddressBookEntry) :
    List.Perm (insertEntry e l) (e :: l) := by
  induction l with
  | nil => rfl
  | cons x xs ih =>
    unfold insertEntry
    split_ifs
    · rfl
    · exact (List.Perm.cons x ih).trans (List.Perm.swap e x xs)

/-- `sortEntries` permutes its input. -/
theorem perm_sortEntries (l : List AddressBookEntry) : List.Perm (sortEntries l) l := by
  induction l with
  | nil => rfl
  | cons x xs ih => exact (perm_insertEntry x (sortEntries xs)).trans (List.Perm.cons x ih)

/-- `insertEntry` preserves sortedness. -/
theorem pairwise_insertEntry {e : AddressBookEntry} {l : List AddressBookEntry}
    (h : l.Pairwise (fun a b => entryLe a b = true)) :
    (insertEntry e l).Pairwise (fun a b => entryLe a b = true) := by
  induction l with
  | nil => exact List.pairwise_cons.mpr ⟨by simp, List.Pairwise.nil⟩
  | cons x xs ih =>
    rw [List.pairwise_cons] at h
    obtain ⟨hx, hxs⟩ := h
    unfold insertEntry
    split_ifs with hex
    · refine List.pairwise_cons.mpr ⟨?_, List.pairwise_cons.mpr ⟨hx, hxs⟩⟩
      intro y hy
      rcases List.mem_cons.mp hy with rfl | hy
      · exact hex
      · exact entryLe_trans e x y hex (hx y hy)
    · have hxe : entryLe x e = true := by
        have := entryLe_total e x
        rw [Bool.eq_false_iff.mpr hex] at this
        simpa using this
      refine List.pairwise_cons.mpr ⟨?_, ih hxs⟩
      intro y hy
      rcases (perm_insertEntry e xs).mem_iff.mp hy with hy2
      rcases List.mem_cons.mp hy2 with rfl | hy3
      · exact hxe
      · exact hx y hy3

/-- `sortEntries` sorts by `(reachable desc, latency asc)`. -/
theorem sorted_sortEntries (l : List AddressBookEntry) :
    (sortEntries l).Pairwise (fun a b => entryLe a b = true) := by
  induction l with
  | nil => exact List.Pairwise.nil
  | cons x xs ih => exact pairwise_insertEntry ih

/-- `updateActive` establishes the book invariant from scratch. -/
theorem updateActive_inv (book : AddressBook) : bookInv (updateActive book) := by
  refine ⟨?_, ?_, rfl⟩
  · exact List.Pairwise.sublist (List.take_sublist _ _) (sorted_sortEntries book.known)
  · show ((sortEntries book.known).take c_MAX_ADDRESS_BOOK_ENTRIES).length ≤ _
    rw [List.length_take]
    exact Nat.min_le_left _ _

/-- `updAt` with a `reachable`/`latency`-preserving function keeps the list
sorted. -/
theorem pairwise_updAt_key {l : List AddressBookEntry} {i : Nat}
    {f : AddressBookEntry → AddressBookEntry}
    (hf : ∀ e, (f e).reachable = e.reachable ∧ (f e).latency = e.latency)
    (h : l.Pairwise (fun a b => entryLe a b = true)) :
    (updAt l i f).Pairwise (fun a b => entryLe a b = true) := by
  induction l generalizing i with
  | nil => simpa [updAt] using h
  | cons x xs ih =>
    rw [List.pairwise_cons] at h
    obtain ⟨hx, hxs⟩ := h
    cases i with
    | zero =>
      refine List.Pairwise.cons ?_ hxs
      intro y hy
      rw [entryLe_congr (hf x).1 (hf x).2 rfl rfl]
      exact hx y hy
    | succ n =>
      refine List.Pairwise.cons ?_ (ih hxs)
      intro y hy
      rcases mem_updAt hy with h | ⟨e, he, hye⟩
      · exact hx y h
      · rw [hye, entryLe_congr rfl rfl (hf e).1 (hf e).2]
        exact hx e he

/-- `updAt` with a `reachable`-preserving function keeps the selected
`active` pointer. -/
theorem activeOf_updAt (l : List AddressBookEntry) (i : Nat)
    (f : AddressBookEntry → AddressBookEntry)
    (hf : ∀ e, (f e).reachable = e.reachable) :
    activeOf (updAt l i f) = activeOf l := by
  cases l with
  | nil => rfl
  | cons x xs => cases i <;> simp [updAt, activeOf, hf x]

/-- A hit in `indexOf` is a valid index. -/
theorem indexOf_lt_length {l : List AddressBookEntry} {addr i : Nat}
    (h : indexOf l addr = some i) : i < l.length := by
  induction l generalizing i with
  | nil => simp [indexOf] at h
  | cons x xs ih =>
    simp only [indexOf] at h
    split_ifs at h with hx
    · cases h
      simp
    · rw [Option.map_eq_some'] at h
      obtain ⟨k, hk, rfl⟩ := h
      simpa using Nat.succ_lt_succ (ih hk)

/-- The entry found by `indexOf` carries the searched address. -/
theorem indexOf_getElem {l : List AddressBookEntry} {addr i : Nat}
    (h : indexOf l addr = some i) : ∃ e, l[i]? = some e ∧ e.address = addr := by
  induction l generalizing i with
  | nil => simp [indexOf] at h
  | cons x xs ih =>
    simp only [indexOf] at h
    split_ifs at h with hx
    · cases h
      exact ⟨x, by simp, hx⟩
    · rw [Option.map_eq_some'] at h
      obtain ⟨k, hk, rfl⟩ := h
      simpa using ih hk

/-- A miss in `indexOf` means no entry carries the address. -/
theorem indexOf_eq_none {l : List AddressBookEntry} {addr : Nat}
    (h : indexOf l addr = none) : ∀ e ∈ l, e.address ≠ addr := by
  induction l with
  | nil => simp
  | cons x xs ih =>
    simp only [indexOf] at h
    split_ifs at h with hx
    intro e he
    rcases List.mem_cons.mp he with rfl | he
    · exact hx
    · exact ih (Option.map_eq_none'.mp h) e he

/-- Mapping over `updAt` is invisible when the map ignores the update at the
touched index. -/
theorem map_updAt_eq {α β : Type} (l : List α) (i : Nat) (g : α → α) (f : α → β)
    (h : ∀ e, l[i]? = some e → f (g e) = f e) : (updAt l i g).map f = l.map f := by
  induction l generalizing i with
  | nil => rfl
  | cons x xs ih =>
    cases i with
    | zero =>
      simp only [updAt, List.map_cons]
      rw [h x (by simp)]
    | succ n =>
      simp only [updAt, List.map_cons]
      rw [ih n (fun e he => h e (by simpa using he))]

/-- `any` over `updAt` is invisible when the predicate ignores the update at
the touched index. -/
theorem any_updAt_eq {α : Type} (l : List α) (i : Nat) (g : α → α) (p : α → Bool)
    (h : ∀ e, l[i]? = some e → p (g e) = p e) : (updAt l i g).any p = l.any p := by
  induction l generalizing i with
  | nil => rfl
  | cons x xs ih =>
    cases i with
    | zero =>
      simp only [updAt, List.any_cons]
      rw [h x (by simp)]
    | succ n =>
      simp only [updAt, List.any_cons]
      rw [ih n (fun e he => h e (by simpa using he))]

/-- `any` is invariant under permutation. -/
theorem perm_any {α : Type} {l₁ l₂ : List α} (h : List.Perm l₁ l₂) (p : α → Bool) :
    l₁.any p = l₂.any p := by
  cases hb : l₂.any p with
  | true =>
    obtain ⟨e, he, hpe⟩ := List.any_eq_true.mp hb
    exact List.any_eq_true.mpr ⟨e, h.mem_iff.mpr he, hpe⟩
  | false =>
    refine List.any_eq_false.mpr ?_
    intro e he
    exact List.any_eq_false.mp hb e (h.mem_iff.mp he)

/-- On a sorted list, the head is reachable iff any entry is: `activeOf` is
determined by the presence of a reachable entry. -/
theorem activeOf_sorted_any {l : List AddressBookEntry}
    (h : l.Pairwise (fun a b => entryLe a b = true)) :
    activeOf l = if l.any (fun e => e.reachable) then some 0 else none := by
  cases l with
  | nil => rfl
  | cons x xs =>
    rw [List.pairwise_cons] at h
    obtain ⟨hx, _⟩ := h
    simp only [activeOf, List.any_cons]
    by_cases hr : x.reachable = true
    · simp [hr]
    · have hr' : x.reachable = false := by simpa using hr
      have hall : xs.any (fun e => e.reachable) = false := by
        refine List.any_eq_false.mpr ?_
        intro y hy
        simp only [Bool.not_eq_true]
        cases hy2 : y.reachable
        · rfl
        · exfalso
          have hle := hx y hy
          simp [entryLe, entryLess, hr', hy2] at hle
      simp [hr', hall]

/-- A present address is found by `indexOf`. -/
theorem indexOf_isSome_of_mem {l : List AddressBookEntry} {addr : Nat}
    (h : ∃ e ∈ l, e.address = addr) : ∃ i, indexOf l addr = some i := by
  induction l with
  | nil => simp at h
  | cons x xs ih =>
    by_cases hx : x.address = addr
    · exact ⟨0, by simp [indexOf, hx]⟩
    · obtain ⟨e, he, ha⟩ := h
      rcases List.mem_cons.mp he with rfl | he2
      · exact absurd ha hx
      · obtain ⟨i, hi⟩ := ih ⟨e, he2, ha⟩
        exact ⟨i + 1, by simp [indexOf, hx, hi]⟩

/-- Distinct positions of an address-nodup list hold distinct addresses. -/
theorem address_ne_of_getElem {l : List AddressBookEntry}
    (hnodup : (l.map (fun e => e.address)).Nodup) {i j : Nat} (hij : i ≠ j)
    {a b : AddressBookEntry} (ha : l[i]? = some a) (hb : l[j]? = some b) :
    a.address ≠ b.address := by
  intro hab
  have hi : i < l.length := by
    by_contra hlt
    rw [List.getElem?_eq_none (by omega)] at ha
    cases ha
  have hmi : (l.map (fun e => e.address))[i]? = some a.address := by
    rw [List.getElem?_map, ha]
    rfl
  have hmj : (l.map (fun e => e.address))[j]? = some b.address := by
    rw [List.getElem?_map, hb]
    rfl
  exact hij (List.getElem?_inj (by simpa using hi) hnodup (by rw [hmi, hmj, hab]))

/-- `AddAddress` for an already known address is the identity. -/
theorem addAddress_found {b : AddressBook} {src now : Nat}
    (h : ∃ e ∈ b.known, e.address = src) : b.AddAddress src now = b := by
  obtain ⟨i, hi⟩ := indexOf_isSome_of_mem h
  simp [AddressBook.AddAddress, hi]

/-- `ReceivedHandshake` for a known address updates the found entry in place
and re-sorts. -/
theorem receivedHandshake_of_found (now : Nat) {b : AddressBook} {src i : Nat}
    (hi : indexOf b.known src = some i) :
    b.ReceivedHandshake src now = updateActive { b with known := updAt b.known i (fun e =>
      { e.addLatencySample (now - e.lastAttempt) with
        lastSeen := now, reachable := true, gotResponse := true }) } := by
  simp [AddressBook.ReceivedHandshake, hi]

/-- `epochEntry` never changes the latency. -/
theorem epochEntry_latency (e : AddressBookEntry) : (epochEntry e).latency = e.latency := by
  unfold epochEntry
  split_ifs <;> rfl

/-- `epochEntry` keeps reachability for an entry that got a response (or was
already unreachable). -/
theorem epochEntry_reachable_of_false {e : AddressBookEntry}
    (h : (!e.gotResponse && e.reachable) = false) :
    (epochEntry e).reachable = e.reachable := by
  unfold epochEntry
  split_ifs with hc
  · rw [hc] at h
    cases h
  · rfl

/-- Mapping `epochEntry` over a list with no broken-path candidates keeps the
selected `active` pointer. -/
theorem activeOf_map_epoch {l : List AddressBookEntry}
    (hne : ∀ e ∈ l, (!e.gotResponse && e.reachable) = false) :
    activeOf (l.map epochEntry) = activeOf l := by
  cases l with
  | nil => rfl
  | cons x xs =>
    simp only [List.map_cons, activeOf]
    rw [epochEntry_reachable_of_false (hne x (List.mem_cons_self x xs))]

/-- Repeating `ReceivedHandshake` at the same instant for a known source
address only moves the latency statistics: the multiset of
sample-independent entry cores and the `active` selection stay exactly as
after the first call. -/
theorem receivedHandshake_repeat_core (b : AddressBook) (src now : Nat)
    (hlen : b.known.length ≤ c_MAX_ADDRESS_BOOK_ENTRIES)
    (hnodup : (b.known.map (fun e => e.address)).Nodup)
    (hsrc : ∃ e ∈ b.known, e.address = src) :
    ((((b.ReceivedHandshake src now).ReceivedHandshake src now).known.map entryCore :
        Multiset EntryCore) =
      ((b.ReceivedHandshake src now).known.map entryCore : Multiset EntryCore)) ∧
    ((b.ReceivedHandshake src now).ReceivedHandshake src now).active =
      (b.ReceivedHandshake src now).active := by
  obtain ⟨i, hi⟩ := indexOf_isSome_of_mem hsrc
  obtain ⟨e0, he0, he0a⟩ := indexOf_getElem hi
  have hfound := receivedHandshake_of_found now hi
  have hlen1 : (sortEntries (updAt b.known i (fun e =>
      { e.addLatencySample (now - e.lastAttempt) with
        lastSeen := now, reachable := true, gotResponse := true }))).length
      ≤ c_MAX_ADDRESS_BOOK_ENTRIES := by
    rw [(perm_sortEntries _).length_eq, length_updAt]
    exact hlen
  have hk1 : (b.ReceivedHandshake src now).known
      = sortEntries (updAt b.known i (fun e =>
          { e.addLatencySample (now - e.lastAttempt) with
            lastSeen := now, reachable := true, gotResponse := true })) := by
    rw [hfound]
    exact List.take_of_length_le hlen1
  have hperm1 : List.Perm (b.ReceivedHandshake src now).known
      (updAt b.known i (fun e =>
        { e.addLatencySample (now - e.lastAttempt) with
          lastSeen := now, reachable := true, gotResponse := true })) := by
    rw [hk1]
    exact perm_sortEntries _
  have hQ : ∀ y ∈ (b.ReceivedHandshake src now).known, y.address = src →
      y.lastSeen = now ∧ y.reachable = true ∧ y.gotResponse = true := by
    intro y hy hyaddr
    have hy2 := hperm1.mem_iff.mp hy
    obtain ⟨j, hj⟩ := List.mem_iff_getElem?.mp hy2
    rw [getElem?_updAt] at hj
    by_cases hji : j = i
    · rw [if_pos hji, hji, he0, Option.map_some'] at hj
      injection hj with hj
      rw [← hj]
      exact ⟨rfl, rfl, rfl⟩
    · rw [if_neg hji] at hj
      exfalso
      have hne := address_ne_of_getElem hnodup hji hj he0
      rw [he0a, hyaddr] at hne
      exact hne rfl
  have hsrc1 : ∃ e ∈ (b.ReceivedHandshake src now).known, e.address = src := by
    have hmem : (fun e => { e.addLatencySample (now - e.lastAttempt) with
        lastSeen := now, reachable := true, gotResponse := true }) e0
        ∈ updAt b.known i (fun e =>
          { e.addLatencySample (now - e.lastAttempt) with
            lastSeen := now, reachable := true, gotResponse := true }) := by
      refine List.getElem?_mem (n := i) ?_
      rw [getElem?_updAt, if_pos rfl, he0, Option.map_some']
    exact ⟨_, hperm1.mem_iff.mpr hmem, he0a⟩
  have hlen1' : (b.ReceivedHandshake src now).known.length ≤ c_MAX_ADDRESS_BOOK_ENTRIES := by
    rw [hk1]
    exact hlen1
  obtain ⟨j, hj⟩ := indexOf_isSome_of_mem hsrc1
  obtain ⟨e1, he1, he1a⟩ := indexOf_getElem hj
  have hQ1 := hQ e1 (List.getElem?_mem he1) he1a
  have hcore : entryCore ((fun e => { e.addLatencySample (now - e.lastAttempt) with
      lastSeen := now, reachable := true, gotResponse := true }) e1) = entryCore e1 := by
    obtain ⟨h1, h2, h3⟩ := hQ1
    simp [entryCore, AddressBookEntry.addLatencySample, h1, h2, h3]
  have hfound2 := receivedHandshake_of_found now hj
  have hk2 : ((b.ReceivedHandshake src now).ReceivedHandshake src now).known
      = sortEntries (updAt (b.ReceivedHandshake src now).known j (fun e =>
          { e.addLatencySample (now - e.lastAttempt) with
            lastSeen := now, reachable := true, gotResponse := true })) := by
    rw [hfound2]
    apply List.take_of_length_le
    rw [(perm_sortEntries _).length_eq, length_updAt]
    exact hlen1'
  have hperm2 : List.Perm ((b.ReceivedHandshake src now).ReceivedHandshake src now).known
      (updAt (b.ReceivedHandshake src now).known j (fun e =>
        { e.addLatencySample (now - e.lastAttempt) with
          lastSeen := now, reachable := true, gotResponse := true })) := by
    rw [hk2]
    exact perm_sortEntries _
  have hmapcore : (updAt (b.ReceivedHandshake src now).known j (fun e =>
      { e.addLatencySample (now - e.lastAttempt) with
        lastSeen := now, reachable := true, gotResponse := true })).map entryCore
      = (b.ReceivedHandshake src now).known.map entryCore := by
    apply map_updAt_eq
    intro e he
    rw [he1] at he
    injection he with he
    rw [← he]
    exact hcore
  constructor
  · have hp := hperm2.map entryCore
    rw [hmapcore] at hp
    exact Multiset.coe_eq_coe.mpr hp
  · have ha1 : (b.ReceivedHandshake src now).active
        = activeOf (b.ReceivedHandshake src now).known := by
      rw [hfound]
      rfl
    have ha2 : ((b.ReceivedHandshake src now).ReceivedHandshake src now).active
        = activeOf ((b.ReceivedHandshake src now).ReceivedHandshake src now).known := by
      rw [hfound2]
      rfl
    have hs1 : (b.ReceivedHandshake src now).known.Pairwise
        (fun a b => entryLe a b = true) := by
      rw [hk1]
      exact sorted_sortEntries _
    have hs2 : ((b.ReceivedHandshake src now).ReceivedHandshake src now).known.Pairwise
        (fun a b => entryLe a b = true) := by
      rw [hk2]
      exact sorted_sortEntries _
    rw [ha1, ha2, activeOf_sorted_any hs1, activeOf_sorted_any hs2]
    have hany : ((b.ReceivedHandshake src now).ReceivedHandshake src now).known.any
        (fun e => e.reachable) = (b.ReceivedHandshake src now).known.any
          (fun e => e.reachable) := by
      rw [perm_any hperm2]
      apply any_updAt_eq
      intro e he
      rw [he1] at he
      injection he with he
      rw [← he]
      show true = e1.reachable
      rw [hQ1.2.1]
    rw [hany]

/-- Outcome of `applyHandshakeM` once the three drop-guards passed. -/
theorem applyHandshakeM_eq_accepted {C : Type} {cip : Cipher C} {x : ExchangeM C}
    {hs : Handshake} {src now : Nat} {c : C}
    (hg1 : ¬ hs.atSeq < x.lastRemoteSeq) (hg2 : hs.csid = x.csid)
    (hc : cip.applyHandshake x.cstate hs = some c) :
    applyHandshakeM cip x hs src now = applyHandshakeAccepted cip x hs src now c := by
  simp [applyHandshakeM, hg1, hg2, hc]

/-- Closed form of the accepted branch of `applyHandshake` for a nonzero
handshake seq. -/
theorem applyHandshakeAccepted_eq {C : Type} (cip : Cipher C) (x : ExchangeM C)
    (hs : Handshake) (src now : Nat) (c : C) (hat : hs.atSeq ≠ 0) :
    applyHandshakeAccepted cip x hs src now c =
      (let ri := if x.remoteIdent.isNone then some (hs.publicKey, hs.parts) else x.remoteIdent
       let isL := isLocalSeqM cip { x with cstate := c } hs.atSeq
       let resp : Option HandshakePkt := if isL then none
         else some { csid := x.csid, body := cip.encHandshake c hs.atSeq x.localParts }
       let x1 : ExchangeM C :=
         if isL then
           { x with
             cstate := c, remoteIdent := ri, breakDeadline := now + 120,
             book := x.book.ReceivedHandshake src now }
         else
           { x with
             cstate := c, remoteIdent := ri,
             book := x.book.AddAddress src now,
             lastLocalSeq := if x.lastLocalSeq < hs.atSeq then hs.atSeq else x.lastLocalSeq }
       if x.xstate = XState.dialing ∨ x.xstate = XState.initialising then
         (resp, true,
          { x1 with
            xstate := if x.channels.isEmpty then XState.idle else XState.active,
            expireDeadline := if x.channels.isEmpty then some (now + 120) else none },
          [Event.exchangeOpened])
       else (resp, true, x1, [])) := by
  by_cases hri : x.remoteIdent.isNone = true <;>
    by_cases hL : (if cip.isHigh c = true then hs.atSeq % 2 == 1
      else hs.atSeq % 2 == 0) = true <;>
    by_cases hd : (x.xstate = XState.dialing ∨ x.xstate = XState.initialising) <;>
    by_cases hch : x.channels.isEmpty = true <;>
    by_cases hll : x.lastLocalSeq < hs.atSeq <;>
    simp [applyHandshakeAccepted, resetBreak, resetExpire, generateHandshakeM,
      isLocalSeqM, XState.IsOpen, hri, hL, hd, hch, hll, hat]

/-! ## Claim theorems -/

/-- C1 (counterexample): `getNextSeq` can return 0. With `lastRemoteSeq =
2^32 - 2` (an attacker-chosen handshake `at`) on the low side, the bump to
`lastRemoteSeq + 1 = 2^32 - 1` is odd, and the parity adjustment wraps to 0 —
so the returned values are not "never zero" (and two such calls are not
strictly increasing). -/
theorem getNextSeq_returns_zero_on_wrap :
    (getNextSeq { lastLocalSeq := 0, lastRemoteSeq := 4294967294, nextSeq := 0,
                  isHigh := false } 0).1 = 0 := by
  decide

/-- C1 (amended): provided no `uint32` addition wraps (all counters and the
clock at most `2^32 - 9`), successive `getNextSeq` calls return strictly
increasing nonzero values of the local parity, and a peer whose cipher
reports the opposite `IsHigh` bit can never return the same value. -/
theorem getNextSeq_strict_mono_nonzero_parity (st : SeqState) (now1 now2 : Nat)
    (hns : st.nextSeq + 8 < U32) (hll : st.lastLocalSeq + 8 < U32)
    (hlr : st.lastRemoteSeq + 8 < U32) (hnow1 : now1 + 8 < U32) (hnow2 : now2 + 8 < U32) :
    (getNextSeq st now1).1 ≠ 0 ∧
    (getNextSeq (getNextSeq st now1).2 now2).1 ≠ 0 ∧
    (getNextSeq st now1).1 < (getNextSeq (getNextSeq st now1).2 now2).1 ∧
    (getNextSeq st now1).1 % 2 = (if st.isHigh then 1 else 0) ∧
    (∀ st2 : SeqState, ∀ now3 : Nat, st2.isHigh = !st.isHigh →
      st2.nextSeq < U32 → st2.lastLocalSeq < U32 → st2.lastRemoteSeq < U32 → now3 < U32 →
      (getNextSeq st2 now3).1 ≠ (getNextSeq st now1).1) := by
  have b1 := nextSeqCalc_spec st.nextSeq st.lastLocalSeq st.lastRemoteSeq st.isHigh now1
    (by omega) (by omega) (by omega) (by omega)
  have hfst : (getNextSeq st now1).1
      = nextSeqCalc st.nextSeq st.lastLocalSeq st.lastRemoteSeq st.isHigh now1 := rfl
  have hlt : nextSeqCalc st.nextSeq st.lastLocalSeq st.lastRemoteSeq st.isHigh now1 + 2 < U32 := by
    have h2 := b1.2.1
    simp only [U32] at *
    omega
  have hsnd : (getNextSeq st now1).2
      = { st with nextSeq :=
            nextSeqCalc st.nextSeq st.lastLocalSeq st.lastRemoteSeq st.isHigh now1 + 2 } := by
    simp [getNextSeq, Nat.mod_eq_of_lt hlt]
  have b2 := nextSeqCalc_spec
    (nextSeqCalc st.nextSeq st.lastLocalSeq st.lastRemoteSeq st.isHigh now1 + 2)
    st.lastLocalSeq st.lastRemoteSeq st.isHigh now2
    (by have := b1.2.1; simp only [U32] at *; omega) (by omega) (by omega) (by omega)
  have hfst2 : (getNextSeq (getNextSeq st now1).2 now2).1
      = nextSeqCalc
          (nextSeqCalc st.nextSeq st.lastLocalSeq st.lastRemoteSeq st.isHigh now1 + 2)
          st.lastLocalSeq st.lastRemoteSeq st.isHigh now2 := by
    rw [hsnd]
    rfl
  refine ⟨?_, ?_, ?_, ?_, ?_⟩
  · rw [hfst]; exact b1.2.2.1
  · rw [hfst2]; exact b2.2.2.1
  · rw [hfst, hfst2]
    have := b2.1
    omega
  · rw [hfst]; exact b1.2.2.2
  · intro st2 now3 hhigh hb1 hb2 hb3 hb4
    have p2 := (nextSeqCalc_parity st2.nextSeq st2.lastLocalSeq st2.lastRemoteSeq
      st2.isHigh now3 hb1 hb2 hb3 hb4).1
    rw [hfst]
    have p1 := b1.2.2.2
    have hne : nextSeqCalc st2.nextSeq st2.lastLocalSeq st2.lastRemoteSeq st2.isHigh now3 % 2
        ≠ nextSeqCalc st.nextSeq st.lastLocalSeq st.lastRemoteSeq st.isHigh now1 % 2 := by
      rw [p1, p2, hhigh]
      cases st.isHigh <;> simp
    intro heq
    have hfst3 : (getNextSeq st2 now3).1
        = nextSeqCalc st2.nextSeq st2.lastLocalSeq st2.lastRemoteSeq st2.isHigh now3 := rfl
    rw [hfst3] at heq
    rw [heq] at hne
    exact hne rfl

/-- Witness for the amended C1 at a concrete state. -/
theorem getNextSeq_strict_mono_nonzero_parity_witness :
    ((5 : Nat) + 8 < U32 ∧ (3 : Nat) + 8 < U32 ∧ (4 : Nat) + 8 < U32 ∧
      (10 : Nat) + 8 < U32 ∧ (11 : Nat) + 8 < U32) ∧
    (let st : SeqState := { lastLocalSeq := 3, lastRemoteSeq := 4, nextSeq := 5, isHigh := true }
     (getNextSeq st 10).1 ≠ 0 ∧
     (getNextSeq (getNextSeq st 10).2 11).1 ≠ 0 ∧
     (getNextSeq st 10).1 < (getNextSeq (getNextSeq st 10).2 11).1 ∧
     (getNextSeq st 10).1 % 2 = (if st.isHigh then 1 else 0) ∧
     (∀ st2 : SeqState, ∀ now3 : Nat, st2.isHigh = !st.isHigh →
       st2.nextSeq < U32 → st2.lastLocalSeq < U32 → st2.lastRemoteSeq < U32 → now3 < U32 →
       (getNextSeq st2 now3).1 ≠ (getNextSeq st 10).1)) :=
  ⟨by decide,
   getNextSeq_strict_mono_nonzero_parity
     { lastLocalSeq := 3, lastRemoteSeq := 4, nextSeq := 5, isHigh := true } 10 11
     (by decide) (by decide) (by decide) (by decide) (by decide)⟩

/-- C2 (counterexample): at `lastLocalSeq = nextSeq = 5` (high side, `now = 0`)
the code returns 5, while the spec formula `max(now, lr+1, ll+1, ns)` adjusted
upward to odd parity gives 7: the code only bumps to `lastLocalSeq + 1` when
`seq` is strictly below `lastLocalSeq`. -/
theorem getNextSeq_ne_spec_formula :
    (getNextSeq { lastLocalSeq := 5, lastRemoteSeq := 0, nextSeq := 5, isHigh := true } 0).1 = 5 ∧
    specNextSeq { lastLocalSeq := 5, lastRemoteSeq := 0, nextSeq := 5, isHigh := true } 0 = 7 ∧
    (getNextSeq { lastLocalSeq := 5, lastRemoteSeq := 0, nextSeq := 5, isHigh := true } 0).1 ≠
      specNextSeq { lastLocalSeq := 5, lastRemoteSeq := 0, nextSeq := 5, isHigh := true } 0 := by
  decide

/-- C2 (amended): provided no `uint32` addition wraps, `getNextSeq` returns a
value within 2 above `max(now_unix, last_local_seq, last_remote_seq,
next_seq)` (at least the maximum itself), nonzero and of the local parity,
and afterwards stores exactly the returned value plus 2 in `next_seq`,
leaving the other counters unchanged. -/
theorem getNextSeq_bounds_parity_advance (st : SeqState) (now : Nat)
    (hns : st.nextSeq + 4 < U32) (hll : st.lastLocalSeq + 4 < U32)
    (hlr : st.lastRemoteSeq + 4 < U32) (hnow : now + 4 < U32) :
    max now (max st.lastLocalSeq (max st.lastRemoteSeq st.nextSeq)) ≤ (getNextSeq st now).1 ∧
    (getNextSeq st now).1 ≤ max now (max st.lastLocalSeq (max st.lastRemoteSeq st.nextSeq)) + 2 ∧
    (getNextSeq st now).1 ≠ 0 ∧
    (getNextSeq st now).1 % 2 = (if st.isHigh then 1 else 0) ∧
    (getNextSeq st now).2.nextSeq = (getNextSeq st now).1 + 2 ∧
    (getNextSeq st now).2.lastLocalSeq = st.lastLocalSeq ∧
    (getNextSeq st now).2.lastRemoteSeq = st.lastRemoteSeq ∧
    (getNextSeq st now).2.isHigh = st.isHigh := by
  have b := nextSeqCalc_spec st.nextSeq st.lastLocalSeq st.lastRemoteSeq st.isHigh now
    hns hll hlr hnow
  have hlt : nextSeqCalc st.nextSeq st.lastLocalSeq st.lastRemoteSeq st.isHigh now + 2 < U32 := by
    have h2 := b.2.1
    simp only [U32] at *
    omega
  refine ⟨b.1, b.2.1, b.2.2.1, b.2.2.2, ?_, rfl, rfl, rfl⟩
  show (nextSeqCalc st.nextSeq st.lastLocalSeq st.lastRemoteSeq st.isHigh now + 2) % U32 = _
  rw [Nat.mod_eq_of_lt hlt]
  rfl

/-- Witness for the amended C2 at a concrete state. -/
theorem getNextSeq_bounds_parity_advance_witness :
    ((7 : Nat) + 4 < U32 ∧ (2 : Nat) + 4 < U32 ∧ (9 : Nat) + 4 < U32 ∧ (6 : Nat) + 4 < U32) ∧
    (let st : SeqState := { lastLocalSeq := 2, lastRemoteSeq := 9, nextSeq := 7, isHigh := false }
     max 6 (max st.lastLocalSeq (max st.lastRemoteSeq st.nextSeq)) ≤ (getNextSeq st 6).1 ∧
     (getNextSeq st 6).1 ≤ max 6 (max st.lastLocalSeq (max st.lastRemoteSeq st.nextSeq)) + 2 ∧
     (getNextSeq st 6).1 ≠ 0 ∧
     (getNextSeq st 6).1 % 2 = (if st.isHigh then 1 else 0) ∧
     (getNextSeq st 6).2.nextSeq = (getNextSeq st 6).1 + 2 ∧
     (getNextSeq st 6).2.lastLocalSeq = st.lastLocalSeq ∧
     (getNextSeq st 6).2.lastRemoteSeq = st.lastRemoteSeq ∧
     (getNextSeq st 6).2.isHigh = st.isHigh) :=
  ⟨by decide,
   getNextSeq_bounds_parity_advance
     { lastLocalSeq := 2, lastRemoteSeq := 9, nextSeq := 7, isHigh := false } 6
     (by decide) (by decide) (by decide) (by decide)⟩

/-- C5 (counterexample): the message `[1, 1, 0]` has head length 257, not 1,
yet `Exchange.received` routes it to handshake processing, because the code
only inspects the low byte `msg[1]`. -/
theorem receivedRoute_misroutes_257 :
    receivedRoute [1, 1, 0] = Route.handshakeRoute ∧ headLen [1, 1, 0] = 257 ∧
    headLen [1, 1, 0] ≠ 1 := by
  decide

/-- C5 (amended): a message of at least 3 bytes is routed to handshake
processing iff the low byte of its big-endian head-length field is 1, i.e.
iff `head_len ≡ 1 (mod 256)`; every other message is processed as a channel
packet. -/
theorem receivedRoute_iff_low_byte_one (msg : List Nat) (h3 : 3 ≤ msg.length)
    (hb : ∀ b ∈ msg, b < 256) :
    (receivedRoute msg = Route.handshakeRoute ↔ headLen msg % 256 = 1) := by
  rcases msg with _ | ⟨b0, msg⟩
  · simp at h3
  rcases msg with _ | ⟨b1, msg⟩
  · simp at h3
  rcases msg with _ | ⟨b2, msg⟩
  · simp at h3
  have hb1 : b1 < 256 := hb b1 (by simp)
  have hmod : (b0 * 256 + b1) % 256 = b1 := by omega
  simp only [receivedRoute, headLen, hmod]
  by_cases h : b1 = 1 <;> simp [h]

/-- Witness for the amended C5 on a real handshake message. -/
theorem receivedRoute_iff_low_byte_one_witness :
    (3 ≤ ([0, 1, 9] : List Nat).length ∧ ∀ b ∈ ([0, 1, 9] : List Nat), b < 256) ∧
    (receivedRoute [0, 1, 9] = Route.handshakeRoute ↔ headLen [0, 1, 9] % 256 = 1) :=
  ⟨⟨by decide, by decide⟩, receivedRoute_iff_low_byte_one [0, 1, 9] (by decide) (by decide)⟩

/-- C6 (code-bug exhibit): dialing an exchange that never receives a
handshake terminates at 60 seconds — the `tExpire` timer armed at 60 s by
`newExchange` is never rescheduled while the exchange is `Initialising` or
`Dialing` (`resetExpire` only re-arms it when the state is open) — so `Dial`
fails after 1 minute, not the 2 minutes its documentation and the spec
promise. (Run with every `rand.Intn` draw equal to 0.) -/
theorem dial_no_handshake_expires_at_60 :
    (runSim 10 (dialSim newExchangeSim)).xstate = XState.expired ∧
    (runSim 10 (dialSim newExchangeSim)).tNow = 60 ∧
    (runSim 10 (dialSim newExchangeSim)).tNow ≠ 120 := by
  decide

/-- C7 (counterexample): for a previous delay of 0 the code's base value is
4 seconds, not the claimed `max(1, 0*2) = 1`. -/
theorem rescheduleDelay_zero_prev_is_4 :
    rescheduleDelay 0 0 = 4 ∧ specRescheduleDelay 0 0 = 1 ∧
    rescheduleDelay 0 0 ≠ specRescheduleDelay 0 0 := by
  decide

/-- C7 (amended): the rescheduled delay is `min(60, prev*2)` for `prev > 0`
but `4` (not 1) for `prev = 0`, minus the random draw `r ∈ [0, base/3)` when
`base/3 > 0`; the result always lies in `[1, 60]`. -/
theorem rescheduleDelay_formula (prev r : Nat) (base : Nat)
    (hbase : base = if prev = 0 then 4 else min 60 (prev * 2))
    (h : 0 < base / 3 → r < base / 3) :
    rescheduleDelay prev r = base - (if 0 < base / 3 then r else 0) ∧
    1 ≤ rescheduleDelay prev r ∧ rescheduleDelay prev r ≤ 60 := by
  subst hbase
  simp only [rescheduleDelay]
  split_ifs at h ⊢ <;> omega

/-- Witness for the amended C7 at `prev = 5`, `r = 2`. -/
theorem rescheduleDelay_formula_witness :
    ((10 : Nat) = (if (5 : Nat) = 0 then 4 else min 60 (5 * 2)) ∧
      (0 < (10 : Nat) / 3 → (2 : Nat) < 10 / 3)) ∧
    (rescheduleDelay 5 2 = 10 - (if 0 < (10 : Nat) / 3 then 2 else 0) ∧
      1 ≤ rescheduleDelay 5 2 ∧ rescheduleDelay 5 2 ≤ 60) :=
  ⟨⟨by decide, by decide⟩,
   rescheduleDelay_formula 5 2 10 (by decide) (by decide)⟩

/-- C8 (counterexample): when the idle-expire timer fires, a blocked `Dial`
is woken in state `Expired` and returns `BrokenExchangeError` — not a
distinct `ExchangeExpired` error. -/
theorem expired_waiters_get_broken_error :
    (expireApply XState.idle none).1 = XState.expired ∧
    dialWaitResult (expireApply XState.idle none).1 = some SurfaceErr.brokenExchange ∧
    dialWaitResult (expireApply XState.idle none).1 ≠ some SurfaceErr.exchangeExpired ∧
    deliverPacketWaitResult (expireApply XState.idle none).1 ≠
      some SurfaceErr.exchangeExpired := by
  decide

/-- C8 (amended): when the idle-expire timer fires on a non-terminal
exchange, still-waiting `Dial` and `deliverPacket` calls are surfaced the
same `BrokenExchangeError` as on break; the idle expiry is distinguished
only by the terminal state `Expired` and by the `ExchangeClosedEvent`
carrying no error (versus `BrokenExchange` when the break timer fires). -/
theorem expire_surfaces_broken_to_waiters (s : XState)
    (h1 : s ≠ XState.expired) (h2 : s ≠ XState.broken) :
    (expireApply s none).1 = XState.expired ∧
    (expireApply s none).2 = some none ∧
    dialWaitResult (expireApply s none).1 = some SurfaceErr.brokenExchange ∧
    deliverPacketWaitResult (expireApply s none).1 = some SurfaceErr.brokenExchange ∧
    (expireApply s (some SurfaceErr.brokenExchange)).1 = XState.broken ∧
    (expireApply s (some SurfaceErr.brokenExchange)).2 =
      some (some SurfaceErr.brokenExchange) := by
  cases s <;> simp_all [expireApply, dialWaitResult, deliverPacketWaitResult, XState.IsOpen]

/-- Witness for the amended C8 from the `Idle` state. -/
theorem expire_surfaces_broken_to_waiters_witness :
    (XState.idle ≠ XState.expired ∧ XState.idle ≠ XState.broken) ∧
    ((expireApply XState.idle none).1 = XState.expired ∧
     (expireApply XState.idle none).2 = some none ∧
     dialWaitResult (expireApply XState.idle none).1 = some SurfaceErr.brokenExchange ∧
     deliverPacketWaitResult (expireApply XState.idle none).1 = some SurfaceErr.brokenExchange ∧
     (expireApply XState.idle (some SurfaceErr.brokenExchange)).1 = XState.broken ∧
     (expireApply XState.idle (some SurfaceErr.brokenExchange)).2 =
       some (some SurfaceErr.brokenExchange)) :=
  ⟨⟨by decide, by decide⟩,
   expire_surfaces_broken_to_waiters XState.idle (by decide) (by decide)⟩

/-- C4: every address-book operation preserves the invariant of P4 — `known`
stays sorted by `(reachable desc, latency asc)`, holds at most 16 entries,
and `active` points at the first entry exactly when it is reachable (the
best reachable entry, or none). `AddAddress` and `ReceivedHandshake` re-sort
via `updateActive`; `SentHandshake` only touches `LastAttempt` (sort-key
irrelevant); `NextHandshakeEpoch` re-sorts exactly when some reachability
flag changed, and otherwise only clears `GotResponse` flags. -/
theorem addressBook_ops_preserve_inv (b : AddressBook) (addr now : Nat) (h : bookInv b) :
    bookInv (b.AddAddress addr now) ∧ bookInv (b.ReceivedHandshake addr now) ∧
    bookInv (b.SentHandshake addr now) ∧ bookInv b.NextHandshakeEpoch := by
  obtain ⟨hp, hl, ha⟩ := h
  refine ⟨?_, ?_, ?_, ?_⟩
  · cases hidx : indexOf b.known addr with
    | some i => simpa only [AddressBook.AddAddress, hidx] using ⟨hp, hl, ha⟩
    | none =>
      simp only [AddressBook.AddAddress, hidx]
      exact updateActive_inv _
  · cases hidx : indexOf b.known addr with
    | some i =>
      simp only [AddressBook.ReceivedHandshake, hidx]
      exact updateActive_inv _
    | none =>
      simp only [AddressBook.ReceivedHandshake, hidx]
      exact updateActive_inv _
  · cases hidx : indexOf b.known addr with
    | none => simpa only [AddressBook.SentHandshake, hidx] using ⟨hp, hl, ha⟩
    | some i =>
      simp only [AddressBook.SentHandshake, hidx]
      refine ⟨?_, ?_, ?_⟩
      · exact pairwise_updAt_key (fun e => ⟨rfl, rfl⟩) hp
      · show (updAt b.known i _).length ≤ _
        rw [length_updAt]
        exact hl
      · show b.active = activeOf (updAt b.known i _)
        rw [ha]
        exact (activeOf_updAt b.known i (fun e => { e with lastAttempt := now })
          (fun e => rfl)).symm
  · simp only [AddressBook.NextHandshakeEpoch]
    by_cases hc : b.known.any (fun e => !e.gotResponse && e.reachable) = true
    · rw [if_pos hc]
      exact updateActive_inv _
    · rw [if_neg hc]
      have hne : ∀ e ∈ b.known, (!e.gotResponse && e.reachable) = false := by
        have := Bool.eq_false_iff.mpr hc
        intro e he
        have h2 := List.any_eq_false.mp this e he
        simpa using h2
      refine ⟨?_, ?_, ?_⟩
      · refine List.pairwise_map.mpr ?_
        refine hp.imp_of_mem ?_
        intro a b2 ha2 hb2 hr
        rw [entryLe_congr (epochEntry_reachable_of_false (hne a ha2)) (epochEntry_latency a)
          (epochEntry_reachable_of_false (hne b2 hb2)) (epochEntry_latency b2)]
        exact hr
      · show (b.known.map epochEntry).length ≤ _
        rw [List.length_map]
        exact hl
      · show b.active = activeOf (b.known.map epochEntry)
        rw [activeOf_map_epoch hne]
        exact ha

/-- Witness for C4 on the empty book. -/
theorem addressBook_ops_preserve_inv_witness :
    bookInv newAddressBook ∧
    (bookInv (newAddressBook.AddAddress 1 0) ∧
     bookInv (newAddressBook.ReceivedHandshake 1 0) ∧
     bookInv (newAddressBook.SentHandshake 1 0) ∧
     bookInv newAddressBook.NextHandshakeEpoch) :=
  ⟨⟨List.Pairwise.nil, by decide, rfl⟩,
   addressBook_ops_preserve_inv newAddressBook 1 0 ⟨List.Pairwise.nil, by decide, rfl⟩⟩

/-- C10: `SentHandshake` with an unknown address leaves the book unchanged
(nothing is inserted); with a known address it rewrites only that entry's
`LastAttempt` to now — every other entry, the order of `known`, the length,
and `active` are untouched. -/
theorem sentHandshake_frame (b : AddressBook) (addr now : Nat) :
    (indexOf b.known addr = none → b.SentHandshake addr now = b) ∧
    (∀ i, indexOf b.known addr = some i →
      (b.SentHandshake addr now).active = b.active ∧
      (b.SentHandshake addr now).known.length = b.known.length ∧
      (∀ j, j ≠ i → (b.SentHandshake addr now).known[j]? = b.known[j]?) ∧
      (∃ e, b.known[i]? = some e ∧ e.address = addr ∧
        (b.SentHandshake addr now).known[i]? = some { e with lastAttempt := now })) := by
  constructor
  · intro h
    simp [AddressBook.SentHandshake, h]
  · intro i h
    have hk : (b.SentHandshake addr now).known
        = updAt b.known i (fun e => { e with lastAttempt := now }) := by
      simp [AddressBook.SentHandshake, h]
    have hactive : (b.SentHandshake addr now).active = b.active := by
      simp [AddressBook.SentHandshake, h]
    refine ⟨hactive, ?_, ?_, ?_⟩
    · rw [hk, length_updAt]
    · intro j hj
      rw [hk, getElem?_updAt]
      simp [hj]
    · obtain ⟨e, he, haddr⟩ := indexOf_getElem h
      refine ⟨e, he, haddr, ?_⟩
      rw [hk, getElem?_updAt]
      simp [he]

/-- Witness for C10 on a two-entry book. -/
theorem sentHandshake_frame_witness :
    (indexOf [initEntry 3 0, initEntry 4 0] 3 = some 0) ∧
    (({ known := [initEntry 3 0, initEntry 4 0], active := some 0 } :
        AddressBook).SentHandshake 3 9).active =
      ({ known := [initEntry 3 0, initEntry 4 0], active := some 0 } : AddressBook).active ∧
    (({ known := [initEntry 3 0, initEntry 4 0], active := some 0 } :
        AddressBook).SentHandshake 3 9).known.length =
      ({ known := [initEntry 3 0, initEntry 4 0], active := some 0 } :
        AddressBook).known.length ∧
    (∀ j, j ≠ 0 →
      (({ known := [initEntry 3 0, initEntry 4 0], active := some 0 } :
          AddressBook).SentHandshake 3 9).known[j]? =
        ({ known := [initEntry 3 0, initEntry 4 0], active := some 0 } :
          AddressBook).known[j]?) ∧
    (∃ e, ({ known := [initEntry 3 0, initEntry 4 0], active := some 0 } :
        AddressBook).known[0]? = some e ∧ e.address = 3 ∧
      (({ known := [initEntry 3 0, initEntry 4 0], active := some 0 } :
          AddressBook).SentHandshake 3 9).known[0]? =
        some { e with lastAttempt := 9 }) :=
  ⟨by decide,
   (sentHandshake_frame { known := [initEntry 3 0, initEntry 4 0], active := some 0 } 3 9).2
     0 (by decide)⟩

/-- C9: given that the peer hashname parses and DER encoding succeeds,
`serve_peer` opens a `connect` channel iff the named peer differs from the
relay's own hashname, differs from the sender, the sender's public key is
known, and the relay has the named peer registered; the `connect` message is
addressed to the named peer, carries the DER-encoded sender key as body and
the sender's observed IP/port — except that the supplied `local` IP/port is
substituted exactly when the sender's observed IP equals the relay's known
IP for the named peer. -/
theorem servePeer_spec (selfHN : String) (parseHN : String → Option String)
    (getPeerIP : String → Option String) (encDER : Nat → Option Nat)
    (hdr : PeerHdr) (sender : SenderInfo) (hn : String)
    (hparse : parseHN hdr.peer = some hn)
    (hder : ∀ k, (encDER k).isSome) :
    ((servePeer selfHN parseHN getPeerIP encDER hdr sender).isSome ↔
      (hn ≠ selfHN ∧ hn ≠ sender.hashname ∧ sender.pubkey.isSome ∧ (getPeerIP hn).isSome)) ∧
    (∀ out, servePeer selfHN parseHN getPeerIP encDER hdr sender = some out →
      out.target = hn ∧
      (∃ pk, sender.pubkey = some pk ∧ encDER pk = some out.body) ∧
      (∃ pip, getPeerIP hn = some pip ∧
        ((out.ip, out.port) =
          match hdr.localAddr with
          | some lp => if pip = sender.ip then lp else (sender.ip, sender.port)
          | none => (sender.ip, sender.port)))) := by
  by_cases h1 : hn = selfHN
  · simp [servePeer, hparse, h1]
  by_cases h2 : hn = sender.hashname
  · simp [servePeer, hparse, h1, h2]
  cases hpk : sender.pubkey with
  | none => simp [servePeer, hparse, h1, h2, hpk]
  | some pk =>
  cases hip : getPeerIP hn with
  | none => simp [servePeer, hparse, h1, h2, hpk, hip]
  | some pip =>
  cases henc : encDER pk with
  | none =>
    have hb := hder pk
    rw [henc] at hb
    cases hb
  | some body =>
  cases hloc : hdr.localAddr with
  | none =>
    refine ⟨by simp [servePeer, hparse, h1, h2, hpk, hip, henc, hloc], ?_⟩
    intro out hout
    simp [servePeer, hparse, h1, h2, hpk, hip, henc, hloc] at hout
    subst hout
    exact ⟨rfl, ⟨pk, rfl, henc⟩, ⟨pip, rfl, rfl⟩⟩
  | some lp =>
    refine ⟨by simp [servePeer, hparse, h1, h2, hpk, hip, henc, hloc], ?_⟩
    intro out hout
    simp [servePeer, hparse, h1, h2, hpk, hip, henc, hloc] at hout
    subst hout
    refine ⟨rfl, ⟨pk, rfl, henc⟩, ⟨pip, rfl, ?_⟩⟩
    by_cases hipeq : pip = sender.ip <;> simp [hipeq]

/-- Witness for C9: a concrete relay with one registered peer on the same
external IP as the sender, so the LAN substitution fires. -/
theorem servePeer_spec_witness :
    ((fun s => some s) ("b" : String) = some "b" ∧
      ∀ k : Nat, ((fun k : Nat => some (k + 1)) k).isSome) ∧
    (((servePeer "r" (fun s => some s) (fun h => if h = "b" then some "1.2.3.4" else none)
        (fun k => some (k + 1))
        { peer := "b", localAddr := some ("10.0.0.1", 99) }
        { hashname := "a", pubkey := some 5, ip := "1.2.3.4", port := 10 }).isSome ↔
      (("b" : String) ≠ "r" ∧ ("b" : String) ≠ "a" ∧ (some 5 : Option Nat).isSome ∧
        ((fun h : String => if h = "b" then some "1.2.3.4" else none) "b").isSome)) ∧
    (∀ out, servePeer "r" (fun s => some s)
        (fun h => if h = "b" then some "1.2.3.4" else none) (fun k => some (k + 1))
        { peer := "b", localAddr := some ("10.0.0.1", 99) }
        { hashname := "a", pubkey := some 5, ip := "1.2.3.4", port := 10 } = some out →
      out.target = "b" ∧
      (∃ pk, (some 5 : Option Nat) = some pk ∧ (fun k : Nat => some (k + 1)) pk = some out.body) ∧
      (∃ pip, (fun h : String => if h = "b" then some "1.2.3.4" else none) "b" = some pip ∧
        ((out.ip, out.port) =
          match (some ("10.0.0.1", 99) : Option (String × Nat)) with
          | some lp => if pip = "1.2.3.4" then lp else ("1.2.3.4", 10)
          | none => ("1.2.3.4", 10))))) :=
  ⟨⟨rfl, fun k => rfl⟩,
   servePeer_spec "r" (fun s => some s) (fun h => if h = "b" then some "1.2.3.4" else none)
     (fun k => some (k + 1))
     { peer := "b", localAddr := some ("10.0.0.1", 99) }
     { hashname := "a", pubkey := some 5, ip := "1.2.3.4", port := 10 } "b" rfl (fun k => rfl)⟩

/-- C3 (counterexample): applying the same handshake twice does not leave
the exchange in the same state. On a concrete exchange whose cipher accepts
every handshake, a repeated response handshake runs
`addressBook.ReceivedHandshake` again, which appends another latency sample
(`sample_count` grows, the EWMA moves), so the exchange state differs even
though both applications are accepted. -/
theorem applyHandshake_not_idempotent_on_samples :
    (applyHandshakeM cipU ((applyHandshakeM cipU xC3 hsC3 7 50).2.2.1) hsC3 7 50).2.2.1 ≠
      (applyHandshakeM cipU xC3 hsC3 7 50).2.2.1 ∧
    (applyHandshakeM cipU xC3 hsC3 7 50).2.1 = true ∧
    (applyHandshakeM cipU ((applyHandshakeM cipU xC3 hsC3 7 50).2.2.1) hsC3 7 50).2.1 = true := by
  decide

/-- C3 (amended): for a handshake with nonzero `at` that the cipher accepts
repeatedly, from a source address already present in the (≤16-entry,
duplicate-free) address book, applying the same handshake a second time at
the same instant is accepted again and leaves the exchange in the same state
up to the address book's latency statistics (the multiset of entries
compared without latency/samples, and the `active` selection, are
unchanged — only the source entry's sample statistics and the resulting
order of `known` move), and `ExchangeOpenedEvent` is triggered at most once
across the two applications. -/
theorem applyHandshake_idempotent_core {C : Type} (cip : Cipher C) (x : ExchangeM C)
    (hs : Handshake) (src now : Nat)
    (hat : hs.atSeq ≠ 0)
    (hidem : ∀ c c', cip.applyHandshake c hs = some c' → cip.applyHandshake c' hs = some c')
    (hlen : x.book.known.length ≤ c_MAX_ADDRESS_BOOK_ENTRIES)
    (hnodup : (x.book.known.map (fun e => e.address)).Nodup)
    (hsrc : ∃ e ∈ x.book.known, e.address = src)
    (hok : (applyHandshakeM cip x hs src now).2.1 = true) :
    (applyHandshakeM cip (applyHandshakeM cip x hs src now).2.2.1 hs src now).2.1 = true ∧
    coreView (applyHandshakeM cip (applyHandshakeM cip x hs src now).2.2.1 hs src now).2.2.1
      = coreView (applyHandshakeM cip x hs src now).2.2.1 ∧
    (applyHandshakeM cip x hs src now).2.2.2.length +
      (applyHandshakeM cip (applyHandshakeM cip x hs src now).2.2.1 hs src now).2.2.2.length
      ≤ 1 := by
  by_cases hg1 : hs.atSeq < x.lastRemoteSeq
  · simp [applyHandshakeM, hg1] at hok
  by_cases hg2 : hs.csid = x.csid
  case neg => simp [applyHandshakeM, hg1, hg2] at hok
  obtain ⟨c, hc⟩ : ∃ c, cip.applyHandshake x.cstate hs = some c := by
    cases hcc : cip.applyHandshake x.cstate hs with
    | none => simp [applyHandshakeM, hg1, hg2, hcc] at hok
    | some c => exact ⟨c, rfl⟩
  have hc' : cip.applyHandshake c hs = some c := hidem _ _ hc
  have hbook := receivedHandshake_repeat_core x.book src now hlen hnodup hsrc
  have haddr : x.book.AddAddress src now = x.book := addAddress_found hsrc
  by_cases hri : x.remoteIdent.isNone = true <;>
    by_cases hL : (if cip.isHigh c = true then hs.atSeq % 2 == 1
      else hs.atSeq % 2 == 0) = true <;>
    by_cases hd : (x.xstate = XState.dialing ∨ x.xstate = XState.initialising) <;>
    by_cases hch : x.channels.isEmpty = true <;>
    by_cases hll : x.lastLocalSeq < hs.atSeq <;>
    simp [applyHandshakeM, applyHandshakeAccepted, resetBreak, resetExpire,
      generateHandshakeM, isLocalSeqM, XState.IsOpen, coreView, hg1, hg2, hc, hc',
      hri, hL, hd, hch, hll, hat, haddr, hbook.1, hbook.2]

/-- Witness for the amended C3 on the concrete exchange `xC3`. -/
theorem applyHandshake_idempotent_core_witness :
    (hsC3.atSeq ≠ 0 ∧
     (∀ c c' : Unit, cipU.applyHandshake c hsC3 = some c' →
        cipU.applyHandshake c' hsC3 = some c') ∧
     xC3.book.known.length ≤ c_MAX_ADDRESS_BOOK_ENTRIES ∧
     (xC3.book.known.map (fun e => e.address)).Nodup ∧
     (∃ e ∈ xC3.book.known, e.address = 7) ∧
     (applyHandshakeM cipU xC3 hsC3 7 50).2.1 = true) ∧
    ((applyHandshakeM cipU (applyHandshakeM cipU xC3 hsC3 7 50).2.2.1 hsC3 7 50).2.1 = true ∧
     coreView (applyHandshakeM cipU (applyHandshakeM cipU xC3 hsC3 7 50).2.2.1 hsC3 7 50).2.2.1
       = coreView (applyHandshakeM cipU xC3 hsC3 7 50).2.2.1 ∧
     (applyHandshakeM cipU xC3 hsC3 7 50).2.2.2.length +
       (applyHandshakeM cipU (applyHandshakeM cipU xC3 hsC3 7 50).2.2.1 hsC3 7 50).2.2.2.length
       ≤ 1) :=
  ⟨⟨by decide, fun c c' h => h, by decide, by decide, by decide, by decide⟩,
   applyHandshake_idempotent_core cipU xC3 hsC3 7 50 (by decide)
     (fun c c' h => h) (by decide) (by decide) (by decide) (by decide)⟩

end Gogotelehash
